import Mathlib

/-!
Shallow embedding of the INI parser (src/ini_parser.cpp, src/ini_parser.h).
Strings are modelled as lists of characters; the std::map document is an
association list with unique keys maintained by the update operations;
C++ exceptions become `Except` results carrying an error kind and the
optional 1-based line number.
-/

/-- Strings of the C++ program, modelled as lists of characters. -/
abbrev Str := List Char

/-- Build a `Str` from a Lean string literal (for concrete test inputs). -/
def str (s : String) : Str := s.data

/-- The characters removed by `ini_parser::trim`: `find_first_not_of(" \t")`. -/
def isTrimChar (c : Char) : Bool := c = ' ' || c = '\t'

/-- The C-locale `std::isspace` predicate used by the name validators. -/
def isSpaceC (c : Char) : Bool :=
  c = ' ' || c = '\t' || c = '\n' || c = '\x0b' || c = '\x0c' || c = '\r'

/-- `ini_parser::trim`: strip spaces and tabs from both ends. -/
def trim (s : Str) : Str :=
  ((s.dropWhile isTrimChar).reverse.dropWhile isTrimChar).reverse

/-- Error kinds of `ini_parser_error`, distinguished by the thrown message;
the lookup errors carry the hint list embedded in their message. -/
inductive ErrKind : Type where
  | malformedSection : ErrKind
  | emptySectionName : ErrKind
  | sectionNameWhitespace : ErrKind
  | emptyKey : ErrKind
  | keyWhitespace : ErrKind
  | missingEquals : ErrKind
  | keyValueOutsideSection : ErrKind
  | malformedPath : ErrKind
  | emptyPathComponent : ErrKind
  | sectionNotFound (known : List Str) : ErrKind
  | keyNotFound (known : List Str) : ErrKind
  | conversionError : ErrKind
  deriving DecidableEq, Repr

/-- An `ini_parser_error`: kind plus the optional 1-based line number. -/
structure IniError : Type where
  kind : ErrKind
  lineNum : Option Nat
  deriving DecidableEq, Repr

/-- One section: key-to-value mapping (association list, unique keys). -/
abbrev IniSection := List (Str × Str)

/-- The document: section-name-to-section mapping (association list). -/
abbrev Document := List (Str × IniSection)

/-- Lookup of a key inside a section (`std::map::find`). -/
def sectFind (m : IniSection) (k : Str) : Option Str :=
  (m.find? (fun p => p.1 = k)).map (fun p => p.2)

/-- Lookup of a section in the document (`std::map::find`). -/
def docFind (doc : Document) (s : Str) : Option IniSection :=
  (doc.find? (fun p => p.1 = s)).map (fun p => p.2)

/-- Value of key `k` of section `s`, if both exist. -/
def docFind2 (doc : Document) (s k : Str) : Option Str :=
  match docFind doc s with
  | none => none
  | some m => sectFind m k

/-- `section[key] = value`: update in place or append (std::map operator[]). -/
def sectSet (m : IniSection) (k v : Str) : IniSection :=
  match m with
  | [] => [(k, v)]
  | (k', v') :: t => if k' = k then (k', v) :: t else (k', v') :: sectSet t k v

/-- `data[section]`: insert an empty section if absent (std::map operator[]). -/
def docInsertEmpty (doc : Document) (s : Str) : Document :=
  match doc with
  | [] => [(s, [])]
  | (s', m) :: t => if s' = s then (s', m) :: t else (s', m) :: docInsertEmpty t s

/-- `data[section][key] = value`: create the section if absent, then write. -/
def docSet (doc : Document) (s k v : Str) : Document :=
  match doc with
  | [] => [(s, [(k, v)])]
  | (s', m) :: t => if s' = s then (s', sectSet m k v) :: t else (s', m) :: docSet t s k v

/-- Names of the sections of a document, in storage order. -/
def docSectionNames (doc : Document) : List Str := doc.map (fun p => p.1)

/-- Keys of one section, in storage order. -/
def sectKeys (m : IniSection) : List Str := m.map (fun p => p.1)

/-- `ini_parser::split_key_value`: split at the first `=`. -/
def splitKeyValue (line : Str) (n : Nat) : Except IniError (Str × Str) :=
  if '=' ∈ line then
    let key := trim (line.takeWhile (fun c => c ≠ '='))
    if key = [] then .error ⟨.emptyKey, some n⟩
    else .ok (key, trim ((line.dropWhile (fun c => c ≠ '=')).tail))
  else .error ⟨.missingEquals, some n⟩

/-- `ini_parser::validate_section_name`. -/
def validateSectionName (name : Str) (n : Nat) : Except IniError Unit :=
  if name = [] then .error ⟨.emptySectionName, some n⟩
  else if name.any isSpaceC then .error ⟨.sectionNameWhitespace, some n⟩
  else .ok ()

/-- `ini_parser::validate_key_name`. -/
def validateKeyName (name : Str) (n : Nat) : Except IniError Unit :=
  if name = [] then .error ⟨.emptyKey, some n⟩
  else if name.any isSpaceC then .error ⟨.keyWhitespace, some n⟩
  else .ok ()

/-- The body of the `parse_file` loop for one raw line: trim, skip blank and
comment lines, handle a section header, or handle a key-value line.
Returns the updated (current section, document) state. -/
def processLine (sec : Str) (doc : Document) (raw : Str) (n : Nat) :
    Except IniError (Str × Document) :=
  let line := trim raw
  if line = [] then .ok (sec, doc)
  else if line.head? = some ';' then .ok (sec, doc)
  else if line.head? = some '[' then
    if line.getLast? ≠ some ']' then .error ⟨.malformedSection, some n⟩
    else
      let name := trim (line.tail.dropLast)
      match validateSectionName name n with
      | .error e => .error e
      | .ok _ => .ok (name, docInsertEmpty doc name)
  else
    if sec = [] then .error ⟨.keyValueOutsideSection, some n⟩
    else
      match splitKeyValue line n with
      | .error e => .error e
      | .ok (k, v) =>
        match validateKeyName k n with
        | .error e => .error e
        | .ok _ => .ok (sec, docSet doc sec k v)

/-- The `parse_file` loop over the remaining lines, threading the line
counter, the current section and the document built so far. -/
def runLines : List Str → Nat → Str → Document → Except IniError (Nat × Str × Document)
  | [], n, sec, doc => .ok (n, sec, doc)
  | l :: ls, n, sec, doc =>
    match processLine sec doc l (n + 1) with
    | .error e => .error e
    | .ok (sec', doc') => runLines ls (n + 1) sec' doc'

/-- `ini_parser::parse_file` on a whole line sequence: empty initial section
marker, empty document, line counter starting at 0. -/
def parse (lines : List Str) : Except IniError Document :=
  match runLines lines 0 [] [] with
  | .error e => .error e
  | .ok (_, _, doc) => .ok doc

/-- `ini_parser::get_value_as_string`: split the query path at the first `.`,
then look up section and key, reporting the known alternatives on a miss. -/
def getRaw (doc : Document) (path : Str) : Except IniError Str :=
  if '.' ∈ path then
    let sp := path.takeWhile (fun c => c ≠ '.')
    let kp := (path.dropWhile (fun c => c ≠ '.')).tail
    if sp = [] ∨ kp = [] then .error ⟨.emptyPathComponent, none⟩
    else
      match docFind doc sp with
      | none => .error ⟨.sectionNotFound (docSectionNames doc), none⟩
      | some m =>
        match sectFind m kp with
        | none => .error ⟨.keyNotFound (sectKeys m), none⟩
        | some v => .ok v
  else .error ⟨.malformedPath, none⟩

/-- Numeric value of a base-10 digit string. -/
def digitsVal (ds : List Char) : Nat :=
  ds.foldl (fun a c => a * 10 + (c.toNat - '0'.toNat)) 0

/-- `std::stoi` (base 10): skip leading whitespace, optional sign, then the
longest run of digits; `none` when no digit follows the optional sign or the
value falls outside the `int` range (the thrown `std::invalid_argument` or
`std::out_of_range`). Trailing characters after the digits are ignored. -/
def stoiInt (s : Str) : Option Int :=
  let s1 := s.dropWhile isSpaceC
  let sgn : Int := if s1.head? = some '-' then -1 else 1
  let s2 : Str := if s1.head? = some '-' ∨ s1.head? = some '+' then s1.tail else s1
  let ds := s2.takeWhile Char.isDigit
  if ds = [] then none
  else
    let v : Int := sgn * (digitsVal ds : Int)
    if v < -2147483648 ∨ 2147483647 < v then none else some v

/-- `ini_parser::convert_value<int>`: `std::stoi`, any exception mapped to a
conversion error. -/
def convertInt (s : Str) : Except IniError Int :=
  match stoiInt s with
  | none => .error ⟨.conversionError, none⟩
  | some v => .ok v

/-! ### Helper lemmas about `trim` -/

theorem trim_eq_rdrop (s : Str) :
    trim s = List.rdropWhile isTrimChar (s.dropWhile isTrimChar) := rfl

theorem dropWhile_trim (s : Str) :
    (trim s).dropWhile isTrimChar = trim s := by
  rw [trim_eq_rdrop]
  obtain ⟨t, ht⟩ := List.rdropWhile_prefix isTrimChar (s.dropWhile isTrimChar)
  cases hz : List.rdropWhile isTrimChar (s.dropWhile isTrimChar) with
  | nil => rfl
  | cons c cs =>
    rw [hz] at ht
    have hy : List.dropWhile isTrimChar (c :: (cs ++ t)) = c :: (cs ++ t) := by
      have hcat : c :: (cs ++ t) = s.dropWhile isTrimChar := by simpa using ht
      rw [hcat]
      exact List.dropWhile_idempotent isTrimChar s
    have hc : ¬ isTrimChar c = true := by
      intro hcc
      rw [List.dropWhile_cons_of_pos hcc] at hy
      have hlen := congrArg List.length hy
      have hle := (List.dropWhile_suffix isTrimChar (l := cs ++ t)).length_le
      simp only [List.length_cons] at hlen
      omega
    exact List.dropWhile_cons_of_neg hc

theorem trim_trim (s : Str) : trim (trim s) = trim s := by
  have h1 : trim (trim s) = List.rdropWhile isTrimChar ((trim s).dropWhile isTrimChar) :=
    trim_eq_rdrop (trim s)
  rw [h1, dropWhile_trim, trim_eq_rdrop]
  exact List.rdropWhile_idempotent isTrimChar (s.dropWhile isTrimChar)

/-! ### Splitting a list at the first occurrence of a separator -/

theorem takeWhile_append_sep (c : Char) (a b : Str) (ha : c ∉ a) :
    (a ++ c :: b).takeWhile (fun x => x ≠ c) = a := by
  induction a with
  | nil => simp
  | cons x xs ih =>
    have hx : x ≠ c := by
      intro h; exact ha (by simp [h])
    simp only [List.cons_append]
    rw [List.takeWhile_cons_of_pos (by simpa using hx)]
    rw [ih (fun h => ha (List.mem_cons_of_mem _ h))]

theorem dropWhile_append_sep (c : Char) (a b : Str) (ha : c ∉ a) :
    (a ++ c :: b).dropWhile (fun x => x ≠ c) = c :: b := by
  induction a with
  | nil => simp
  | cons x xs ih =>
    have hx : x ≠ c := by
      intro h; exact ha (by simp [h])
    simp only [List.cons_append]
    rw [List.dropWhile_cons_of_pos (by simpa using hx)]
    exact ih (fun h => ha (List.mem_cons_of_mem _ h))

/-! ### Inversion lemmas for the tokenizer operations -/

theorem splitKeyValue_ok_inv (line : Str) (n : Nat) (k v : Str)
    (h : splitKeyValue line n = .ok (k, v)) :
    '=' ∈ line ∧ k = trim (line.takeWhile (fun c => c ≠ '=')) ∧ k ≠ [] ∧
      v = trim ((line.dropWhile (fun c => c ≠ '=')).tail) := by
  simp only [splitKeyValue] at h
  split at h
  · split at h
    · exact absurd h (by simp)
    · next hne =>
      simp only [Except.ok.injEq, Prod.mk.injEq] at h
      exact ⟨by assumption, h.1.symm, fun hk => hne (h.1.trans hk), h.2.symm⟩
  · exact absurd h (by simp)

theorem validateSectionName_ok_iff (name : Str) (n : Nat) :
    validateSectionName name n = .ok () ↔ name ≠ [] ∧ name.any isSpaceC = false := by
  simp only [validateSectionName]
  split
  · simp_all
  · split
    · simp_all
    · simp_all

theorem validateKeyName_ok_iff (name : Str) (n : Nat) :
    validateKeyName name n = .ok () ↔ name ≠ [] ∧ name.any isSpaceC = false := by
  simp only [validateKeyName]
  split
  · simp_all
  · split
    · simp_all
    · simp_all

theorem validateSectionName_error_line (name : Str) (n : Nat) (e : IniError)
    (h : validateSectionName name n = .error e) : e.lineNum = some n := by
  simp only [validateSectionName] at h
  split at h
  · cases h; rfl
  · split at h
    · cases h; rfl
    · exact absurd h (by simp)

theorem validateKeyName_error_line (name : Str) (n : Nat) (e : IniError)
    (h : validateKeyName name n = .error e) : e.lineNum = some n := by
  simp only [validateKeyName] at h
  split at h
  · cases h; rfl
  · split at h
    · cases h; rfl
    · exact absurd h (by simp)

theorem splitKeyValue_error_line (line : Str) (n : Nat) (e : IniError)
    (h : splitKeyValue line n = .error e) : e.lineNum = some n := by
  simp only [splitKeyValue] at h
  split at h
  · split at h
    · cases h; rfl
    · exact absurd h (by simp)
  · cases h; rfl

theorem processLine_error_line (sec : Str) (doc : Document) (raw : Str) (n : Nat)
    (e : IniError) (h : processLine sec doc raw n = .error e) : e.lineNum = some n := by
  simp only [processLine] at h
  split at h
  · exact absurd h (by simp)
  · split at h
    · exact absurd h (by simp)
    · split at h
      · split at h
        · cases h; rfl
        · split at h
          · next he => cases h; exact validateSectionName_error_line _ _ _ he
          · exact absurd h (by simp)
      · split at h
        · cases h; rfl
        · split at h
          · next he => cases h; exact splitKeyValue_error_line _ _ _ he
          · split at h
            · next he => cases h; exact validateKeyName_error_line _ _ _ he
            · exact absurd h (by simp)

theorem processLine_ok_cases (sec : Str) (doc : Document) (raw : Str) (n : Nat)
    (sec' : Str) (doc' : Document)
    (h : processLine sec doc raw n = .ok (sec', doc')) :
    ((trim raw = [] ∨ (trim raw).head? = some ';') ∧ sec' = sec ∧ doc' = doc) ∨
    (∃ t, trim raw = '[' :: t ∧ ('[' :: t : Str).getLast? = some ']' ∧
      validateSectionName (trim t.dropLast) n = .ok () ∧
      sec' = trim t.dropLast ∧ doc' = docInsertEmpty doc (trim t.dropLast)) ∨
    (∃ k v, trim raw ≠ [] ∧ (trim raw).head? ≠ some ';' ∧ (trim raw).head? ≠ some '[' ∧
      sec ≠ [] ∧ splitKeyValue (trim raw) n = .ok (k, v) ∧ validateKeyName k n = .ok () ∧
      sec' = sec ∧ doc' = docSet doc sec k v) := by
  simp only [processLine] at h
  split at h
  · next h0 =>
    simp only [Except.ok.injEq, Prod.mk.injEq] at h
    exact Or.inl ⟨Or.inl h0, h.1.symm, h.2.symm⟩
  · next h0 =>
    split at h
    · next h1 =>
      simp only [Except.ok.injEq, Prod.mk.injEq] at h
      exact Or.inl ⟨Or.inr h1, h.1.symm, h.2.symm⟩
    · next h1 =>
      split at h
      · next h2 =>
        split at h
        · exact absurd h (by simp)
        · next h3 =>
          split at h
          · exact absurd h (by simp)
          · next u hv =>
            simp only [Except.ok.injEq, Prod.mk.injEq] at h
            obtain ⟨t, ht⟩ : ∃ t, trim raw = '[' :: t := by
              cases htr : trim raw with
              | nil => rw [htr] at h2; exact absurd h2 (by simp)
              | cons c cs =>
                rw [htr] at h2
                simp only [List.head?_cons, Option.some.injEq] at h2
                exact ⟨cs, by rw [h2]⟩
            rw [ht] at h3 hv h
            refine Or.inr (Or.inl ⟨t, ht, ?_, ?_, ?_, ?_⟩)
            · simpa using not_not.mp h3
            · simpa using hv
            · exact h.1.symm
            · exact h.2.symm
      · next h2 =>
        split at h
        · exact absurd h (by simp)
        · next h3 =>
          split at h
          · exact absurd h (by simp)
          · next k1 v1 hs =>
            split at h
            · exact absurd h (by simp)
            · next u hk =>
              simp only [Except.ok.injEq, Prod.mk.injEq] at h
              refine Or.inr (Or.inr ⟨k1, v1, h0, h1, h2, h3, hs, ?_, h.1.symm, h.2.symm⟩)
              simpa using hk

/-! ### Structure of the `runLines` fold -/

theorem runLines_append (xs ys : List Str) (n : Nat) (sec : Str) (doc : Document) :
    runLines (xs ++ ys) n sec doc =
      match runLines xs n sec doc with
      | .error e => .error e
      | .ok (n', sec', doc') => runLines ys n' sec' doc' := by
  induction xs generalizing n sec doc with
  | nil => simp [runLines]
  | cons l ls ih =>
    simp only [List.cons_append, runLines]
    cases hp : processLine sec doc l (n + 1) with
    | error e => rfl
    | ok p =>
      obtain ⟨s1, d1⟩ := p
      exact ih (n + 1) s1 d1

theorem runLines_ok_length (xs : List Str) (n : Nat) (sec : Str) (doc : Document)
    (n' : Nat) (sec' : Str) (doc' : Document)
    (h : runLines xs n sec doc = .ok (n', sec', doc')) : n' = n + xs.length := by
  induction xs generalizing n sec doc with
  | nil =>
    simp only [runLines, Except.ok.injEq, Prod.mk.injEq] at h
    simpa using h.1.symm
  | cons l ls ih =>
    simp only [runLines] at h
    cases hp : processLine sec doc l (n + 1) with
    | error e => rw [hp] at h; exact absurd h (by simp)
    | ok p =>
      rw [hp] at h
      have := ih (n + 1) p.1 p.2 h
      simp only [List.length_cons] at *
      omega

/-! ### Lemmas about the document updates -/

theorem sectFind_cons (k' v' k : Str) (t : IniSection) :
    sectFind ((k', v') :: t) k = if k' = k then some v' else sectFind t k := by
  by_cases h : k' = k <;> simp [sectFind, List.find?_cons, h]

theorem docFind_cons (s' : Str) (m : IniSection) (s : Str) (t : Document) :
    docFind ((s', m) :: t) s = if s' = s then some m else docFind t s := by
  by_cases h : s' = s <;> simp [docFind, List.find?_cons, h]

theorem sectSet_cons (k' v' k0 v0 : Str) (t : IniSection) :
    sectSet ((k', v') :: t) k0 v0 =
      if k' = k0 then (k', v0) :: t else (k', v') :: sectSet t k0 v0 := rfl

theorem docInsertEmpty_cons (s' : Str) (m : IniSection) (s : Str) (t : Document) :
    docInsertEmpty ((s', m) :: t) s =
      if s' = s then (s', m) :: t else (s', m) :: docInsertEmpty t s := rfl

theorem docSet_cons (s' : Str) (m : IniSection) (s k v : Str) (t : Document) :
    docSet ((s', m) :: t) s k v =
      if s' = s then (s', sectSet m k v) :: t else (s', m) :: docSet t s k v := rfl

theorem sectFind_sectSet (m : IniSection) (k0 v0 k : Str) :
    sectFind (sectSet m k0 v0) k = if k = k0 then some v0 else sectFind m k := by
  induction m with
  | nil =>
    show sectFind [(k0, v0)] k = _
    rw [sectFind_cons]
    by_cases h : k = k0
    · subst h; simp
    · rw [if_neg (fun hh => h hh.symm), if_neg h]
  | cons p t ih =>
    obtain ⟨k', v'⟩ := p
    rw [sectSet_cons]
    by_cases h1 : k' = k0
    · subst h1
      rw [if_pos rfl, sectFind_cons, sectFind_cons]
      by_cases h2 : k' = k
      · subst h2; simp
      · rw [if_neg h2, if_neg (fun hh => h2 hh.symm), if_neg h2]
    · rw [if_neg h1, sectFind_cons, sectFind_cons]
      by_cases h2 : k' = k
      · subst h2
        rw [if_pos rfl, if_pos rfl, if_neg h1]
      · rw [if_neg h2, if_neg h2, ih]

theorem docFind_docInsertEmpty (doc : Document) (nm s : Str) :
    docFind (docInsertEmpty doc nm) s =
      if s = nm then (match docFind doc nm with | none => some [] | some m => some m)
      else docFind doc s := by
  induction doc with
  | nil =>
    by_cases h : s = nm
    · subst h; simp [docInsertEmpty, docFind_cons, docFind]
    · have h' : ¬ nm = s := fun hh => h hh.symm
      simp [docInsertEmpty, docFind_cons, docFind, h, h']
  | cons p t ih =>
    obtain ⟨s', m⟩ := p
    rw [docInsertEmpty_cons]
    by_cases h1 : s' = nm
    · subst h1
      rw [if_pos rfl]
      simp only [docFind_cons]
      by_cases h2 : s = s'
      · subst h2; simp
      · have h2' : ¬ s' = s := fun hh => h2 hh.symm
        simp [h2, h2']
    · rw [if_neg h1]
      simp only [docFind_cons]
      by_cases h2 : s' = s
      · subst h2
        have h3 : ¬ s' = nm := h1
        simp [h1, h3]
      · simp [h1, h2, ih]

theorem docFind_docSet (doc : Document) (s0 k0 v0 s : Str) :
    docFind (docSet doc s0 k0 v0) s =
      if s = s0 then
        (match docFind doc s0 with
         | none => some [(k0, v0)]
         | some m => some (sectSet m k0 v0))
      else docFind doc s := by
  induction doc with
  | nil =>
    by_cases h : s = s0
    · subst h; simp [docSet, docFind_cons, docFind]
    · have h' : ¬ s0 = s := fun hh => h hh.symm
      simp [docSet, docFind_cons, docFind, h, h']
  | cons p t ih =>
    obtain ⟨s', m⟩ := p
    rw [docSet_cons]
    by_cases h1 : s' = s0
    · subst h1
      rw [if_pos rfl]
      simp only [docFind_cons]
      by_cases h2 : s = s'
      · subst h2; simp
      · have h2' : ¬ s' = s := fun hh => h2 hh.symm
        simp [h2, h2']
    · rw [if_neg h1]
      simp only [docFind_cons]
      by_cases h2 : s' = s
      · subst h2
        simp [h1]
      · simp [h1, h2, ih]

theorem docFind2_docInsertEmpty (doc : Document) (nm s k : Str) :
    docFind2 (docInsertEmpty doc nm) s k = docFind2 doc s k := by
  simp only [docFind2, docFind_docInsertEmpty]
  by_cases hs : s = nm
  · subst hs
    cases hm : docFind doc s <;> simp [sectFind]
  · simp [hs]

theorem docFind2_docSet (doc : Document) (s0 k0 v0 s k : Str) :
    docFind2 (docSet doc s0 k0 v0) s k =
      if s = s0 ∧ k = k0 then some v0 else docFind2 doc s k := by
  simp only [docFind2, docFind_docSet]
  by_cases hs : s = s0
  · subst hs
    cases hm : docFind doc s with
    | none =>
      by_cases hk : k = k0
      · simp [hk, sectFind_cons]
      · have hk' : ¬ k0 = k := fun hh => hk hh.symm
        simp [hk, hk', sectFind_cons, sectFind]
    | some m =>
      by_cases hk : k = k0
      · simp [hk, sectFind_sectSet]
      · simp [hk, sectFind_sectSet]
  · simp [hs]

/-! ### The trace of key-value assignments performed by the parse loop -/

/-- The (section, key, value) assignments the parse loop performs, in order,
starting from current section `sec`. Mirrors the classification of
`processLine`; on lines that would fail, it records nothing (used only to
describe successful parses). -/
def writes : List Str → Str → List (Str × Str × Str)
  | [], _ => []
  | l :: ls, sec =>
    let t := trim l
    if t = [] then writes ls sec
    else if t.head? = some ';' then writes ls sec
    else if t.head? = some '[' then writes ls (trim t.tail.dropLast)
    else if '=' ∈ t then
      let k := trim (t.takeWhile (fun c => c ≠ '='))
      let v := trim ((t.dropWhile (fun c => c ≠ '=')).tail)
      if k = [] then writes ls sec
      else (sec, k, v) :: writes ls sec
    else writes ls sec

/-- The value of the last write to (section `s`, key `k`) in a trace. -/
def lastVal : List (Str × Str × Str) → Str → Str → Option Str
  | [], _, _ => none
  | w :: t, s, k =>
    match lastVal t s k with
    | some v => some v
    | none => if w.1 = s ∧ w.2.1 = k then some w.2.2 else none

/-- After a successful run of the parse loop, the value stored for any
(section, key) pair is the last value written to it during the run, and
pairs never written keep their initial value. -/
theorem runLines_docFind2 (ls : List Str) (n : Nat) (sec : Str) (doc : Document)
    (n' : Nat) (sec' : Str) (doc' : Document)
    (h : runLines ls n sec doc = .ok (n', sec', doc')) (s k : Str) :
    docFind2 doc' s k =
      match lastVal (writes ls sec) s k with
      | some v => some v
      | none => docFind2 doc s k := by
  induction ls generalizing n sec doc with
  | nil =>
    simp only [runLines, Except.ok.injEq, Prod.mk.injEq] at h
    obtain ⟨-, -, hd⟩ := h
    subst hd
    simp [writes, lastVal]
  | cons l t ih =>
    simp only [runLines] at h
    cases hp : processLine sec doc l (n + 1) with
    | error e => rw [hp] at h; exact absurd h (by simp)
    | ok p =>
      obtain ⟨s1, d1⟩ := p
      rw [hp] at h
      rcases processLine_ok_cases sec doc l (n + 1) s1 d1 hp with
        ⟨hskip, hs1, hd1⟩ | ⟨tt, htr, hlast, hval, hs1, hd1⟩ |
        ⟨k1, v1, hne, hnc, hnb, hnsec, hsplit, hvk, hs1, hd1⟩
      · have hw : writes (l :: t) sec = writes t sec := by
          rcases hskip with h0 | h0
          · simp [writes, h0]
          · have hx : ¬ trim l = [] := by
              intro hx; rw [hx] at h0; exact absurd h0 (by simp)
            simp [writes, hx, h0]
        rw [hw]
        rw [hs1, hd1] at h
        exact ih (n + 1) sec doc h
      · have hw : writes (l :: t) sec = writes t (trim tt.dropLast) := by
          have hx : ¬ trim l = [] := by rw [htr]; simp
          have hy : ¬ (trim l).head? = some ';' := by rw [htr]; simp
          have hz : (trim l).head? = some '[' := by rw [htr]; simp
          simp only [writes, if_neg hx, if_neg hy, if_pos hz]
          rw [htr]
          simp
        rw [hw]
        rw [hs1, hd1] at h
        have hmain := ih (n + 1) (trim tt.dropLast) (docInsertEmpty doc (trim tt.dropLast)) h
        rw [hmain, docFind2_docInsertEmpty]
      · obtain ⟨hmem, hkeq, hkne, hveq⟩ := splitKeyValue_ok_inv (trim l) (n + 1) k1 v1 hsplit
        have hw : writes (l :: t) sec = (sec, k1, v1) :: writes t sec := by
          simp only [writes, if_neg hne, if_neg hnc, if_neg hnb, if_pos hmem]
          rw [← hkeq, ← hveq, if_neg hkne]
        rw [hw]
        rw [hs1, hd1] at h
        have hmain := ih (n + 1) sec (docSet doc sec k1 v1) h
        rw [hmain, docFind2_docSet]
        simp only [lastVal]
        cases lastVal (writes t sec) s k with
        | some v => rfl
        | none =>
          by_cases hc : sec = s ∧ k1 = k
          · have hcs : s = sec ∧ k = k1 := ⟨hc.1.symm, hc.2.symm⟩
            rw [if_pos hcs, if_pos hc]
          · have hcs : ¬ (s = sec ∧ k = k1) := fun hx => hc ⟨hx.1.symm, hx.2.symm⟩
            rw [if_neg hcs, if_neg hc]

/-! ### Name and value invariants of parsed documents -/

/-- A valid section or key name: non-empty and free of whitespace. -/
def validName (s : Str) : Prop := s ≠ [] ∧ s.any isSpaceC = false

/-- The invariant of documents built by the parser: all names valid,
all stored values fixed points of `trim`. -/
def docWellFormed (doc : Document) : Prop :=
  ∀ p ∈ doc, validName p.1 ∧ ∀ q ∈ p.2, validName q.1 ∧ trim q.2 = q.2

theorem sectSet_mem (m : IniSection) (k v : Str) (q : Str × Str)
    (hq : q ∈ sectSet m k v) : q ∈ m ∨ q = (k, v) := by
  induction m with
  | nil => simp [sectSet] at hq; simp [hq]
  | cons p t ih =>
    obtain ⟨k', v'⟩ := p
    rw [sectSet_cons] at hq
    by_cases h1 : k' = k
    · rw [if_pos h1] at hq
      rcases List.mem_cons.mp hq with h2 | h2
      · subst h1; subst h2; right; rfl
      · left; exact List.mem_cons_of_mem _ h2
    · rw [if_neg h1] at hq
      rcases List.mem_cons.mp hq with h2 | h2
      · left; simp [h2]
      · rcases ih h2 with h3 | h3
        · left; exact List.mem_cons_of_mem _ h3
        · right; exact h3

theorem docWellFormed_docInsertEmpty (doc : Document) (nm : Str)
    (hd : docWellFormed doc) (hnm : validName nm) :
    docWellFormed (docInsertEmpty doc nm) := by
  induction doc with
  | nil =>
    intro p hp
    simp only [docInsertEmpty, List.mem_singleton] at hp
    subst hp
    exact ⟨hnm, by simp⟩
  | cons q t ih =>
    obtain ⟨s', m⟩ := q
    intro p hp
    rw [docInsertEmpty_cons] at hp
    by_cases h1 : s' = nm
    · rw [if_pos h1] at hp
      exact hd p hp
    · rw [if_neg h1] at hp
      rcases List.mem_cons.mp hp with h2 | h2
      · exact hd p (by simp [h2])
      · exact ih (fun r hr => hd r (List.mem_cons_of_mem _ hr)) p h2

theorem docWellFormed_docSet (doc : Document) (sec k v : Str)
    (hd : docWellFormed doc) (hsec : validName sec) (hk : validName k)
    (hv : trim v = v) : docWellFormed (docSet doc sec k v) := by
  induction doc with
  | nil =>
    intro p hp
    simp only [docSet, List.mem_singleton] at hp
    subst hp
    refine ⟨hsec, ?_⟩
    intro q hq
    simp only [List.mem_singleton] at hq
    subst hq
    exact ⟨hk, hv⟩
  | cons r t ih =>
    obtain ⟨s', m⟩ := r
    intro p hp
    rw [docSet_cons] at hp
    by_cases h1 : s' = sec
    · rw [if_pos h1] at hp
      rcases List.mem_cons.mp hp with h2 | h2
      · subst h2
        refine ⟨(hd (s', m) (by simp)).1, ?_⟩
        intro q hq
        rcases sectSet_mem m k v q hq with h3 | h3
        · exact (hd (s', m) (by simp)).2 q h3
        · subst h3; exact ⟨hk, hv⟩
      · exact hd p (List.mem_cons_of_mem _ h2)
    · rw [if_neg h1] at hp
      rcases List.mem_cons.mp hp with h2 | h2
      · exact hd p (by simp [h2])
      · exact ih (fun r hr => hd r (List.mem_cons_of_mem _ hr)) p h2

theorem runLines_wellFormed (ls : List Str) (n : Nat) (sec : Str) (doc : Document)
    (n' : Nat) (sec' : Str) (doc' : Document)
    (h : runLines ls n sec doc = .ok (n', sec', doc'))
    (hsec : sec = [] ∨ validName sec) (hdoc : docWellFormed doc) :
    (sec' = [] ∨ validName sec') ∧ docWellFormed doc' := by
  induction ls generalizing n sec doc with
  | nil =>
    simp only [runLines, Except.ok.injEq, Prod.mk.injEq] at h
    obtain ⟨-, hs, hd⟩ := h
    subst hs; subst hd
    exact ⟨hsec, hdoc⟩
  | cons l t ih =>
    simp only [runLines] at h
    cases hp : processLine sec doc l (n + 1) with
    | error e => rw [hp] at h; exact absurd h (by simp)
    | ok p =>
      obtain ⟨s1, d1⟩ := p
      rw [hp] at h
      rcases processLine_ok_cases sec doc l (n + 1) s1 d1 hp with
        ⟨hskip, hs1, hd1⟩ | ⟨tt, htr, hlast, hval, hs1, hd1⟩ |
        ⟨k1, v1, hne, hnc, hnb, hnsec, hsplit, hvk, hs1, hd1⟩
      · rw [hs1, hd1] at h
        exact ih (n + 1) sec doc h hsec hdoc
      · have hnm : validName (trim tt.dropLast) :=
          (validateSectionName_ok_iff (trim tt.dropLast) (n + 1)).mp hval
        rw [hs1, hd1] at h
        exact ih (n + 1) (trim tt.dropLast) (docInsertEmpty doc (trim tt.dropLast)) h
          (Or.inr hnm) (docWellFormed_docInsertEmpty doc (trim tt.dropLast) hdoc hnm)
      · obtain ⟨hmem, hkeq, hkne, hveq⟩ := splitKeyValue_ok_inv (trim l) (n + 1) k1 v1 hsplit
        have hsecv : validName sec := by
          rcases hsec with h0 | h0
          · exact absurd h0 hnsec
          · exact h0
        have hkv : validName k1 := (validateKeyName_ok_iff k1 (n + 1)).mp hvk
        have hvv : trim v1 = v1 := by rw [hveq, trim_trim]
        rw [hs1, hd1] at h
        exact ih (n + 1) sec (docSet doc sec k1 v1) h (Or.inr hsecv)
          (docWellFormed_docSet doc sec k1 v1 hdoc hsecv hkv hvv)

theorem parse_wellFormed (lines : List Str) (doc : Document)
    (h : parse lines = .ok doc) : docWellFormed doc := by
  simp only [parse] at h
  cases hr : runLines lines 0 [] [] with
  | error e => rw [hr] at h; exact absurd h (by simp)
  | ok p =>
    rw [hr] at h
    obtain ⟨n', sec', doc'⟩ := p
    simp only [Except.ok.injEq] at h
    subst h
    exact (runLines_wellFormed lines 0 [] [] n' sec' doc' hr (Or.inl rfl)
      (by intro p hp; simp at hp)).2

theorem parse_docFind2 (lines : List Str) (doc : Document)
    (h : parse lines = .ok doc) (s k : Str) :
    docFind2 doc s k = lastVal (writes lines []) s k := by
  simp only [parse] at h
  cases hr : runLines lines 0 [] [] with
  | error e => rw [hr] at h; exact absurd h (by simp)
  | ok p =>
    rw [hr] at h
    obtain ⟨n', sec', doc'⟩ := p
    simp only [Except.ok.injEq] at h
    subst h
    rw [runLines_docFind2 lines 0 [] [] n' sec' doc' hr s k]
    cases lastVal (writes lines []) s k <;> simp [docFind2, docFind]

/-! ### Query paths built from a section and a key -/

theorem getRaw_append_path (doc : Document) (s k : Str)
    (hdot : ('.' : Char) ∉ s) (hs : s ≠ []) (hk : k ≠ []) :
    getRaw doc (s ++ '.' :: k) =
      match docFind doc s with
      | none => .error ⟨.sectionNotFound (docSectionNames doc), none⟩
      | some m =>
        match sectFind m k with
        | none => .error ⟨.keyNotFound (sectKeys m), none⟩
        | some v => .ok v := by
  have hmem : '.' ∈ s ++ '.' :: k := by simp
  have htw : (s ++ '.' :: k).takeWhile (fun c => c ≠ '.') = s :=
    takeWhile_append_sep '.' s k hdot
  have hdw : (s ++ '.' :: k).dropWhile (fun c => c ≠ '.') = '.' :: k :=
    dropWhile_append_sep '.' s k hdot
  simp only [getRaw, if_pos hmem, htw, hdw, List.tail_cons]
  rw [if_neg]
  intro hor
  rcases hor with h0 | h0
  · exact hs h0
  · exact hk h0

theorem docFind_some_mem (doc : Document) (s : Str) (m : IniSection)
    (h : docFind doc s = some m) : (s, m) ∈ doc := by
  simp only [docFind, Option.map_eq_some'] at h
  obtain ⟨p, hp, hm⟩ := h
  have h1 := List.find?_some hp
  have h2 := List.mem_of_find?_eq_some hp
  simp only [decide_eq_true_eq] at h1
  obtain ⟨a, b⟩ := p
  simp only at h1 hm
  subst h1; subst hm
  exact h2

theorem sectFind_some_mem (m : IniSection) (k v : Str)
    (h : sectFind m k = some v) : (k, v) ∈ m := by
  simp only [sectFind, Option.map_eq_some'] at h
  obtain ⟨p, hp, hm⟩ := h
  have h1 := List.find?_some hp
  have h2 := List.mem_of_find?_eq_some hp
  simp only [decide_eq_true_eq] at h1
  obtain ⟨a, b⟩ := p
  simp only at h1 hm
  subst h1; subst hm
  exact h2

theorem sectFind_head (k v : Str) (t : IniSection) :
    sectFind ((k, v) :: t) k = some v := by
  rw [sectFind_cons, if_pos rfl]

/-! ### Provenance of sections: header lines and write-free sections -/

/-- The line's trimmed form is a section header declaring exactly name `s`. -/
def headerFor (l s : Str) : Prop :=
  ∃ t, trim l = '[' :: t ∧ ('[' :: t : Str).getLast? = some ']' ∧ trim t.dropLast = s

/-- A line processed as a key-value line: trimmed non-empty, not a comment,
not a section header. -/
def isKVline (l : Str) : Prop :=
  trim l ≠ [] ∧ (trim l).head? ≠ some ';' ∧ (trim l).head? ≠ some '['

/-- A line whose trimmed form starts with `[` (processed as a header). -/
def isHeaderLine (l : Str) : Prop := (trim l).head? = some '['

theorem docSectionNames_docInsertEmpty (doc : Document) (nm : Str) :
    docSectionNames (docInsertEmpty doc nm) =
      if nm ∈ docSectionNames doc then docSectionNames doc
      else docSectionNames doc ++ [nm] := by
  induction doc with
  | nil => simp [docInsertEmpty, docSectionNames]
  | cons p t ih =>
    obtain ⟨s', m⟩ := p
    rw [docInsertEmpty_cons]
    by_cases h1 : s' = nm
    · subst h1
      simp [docSectionNames]
    · rw [if_neg h1]
      simp only [docSectionNames, List.map_cons] at ih ⊢
      have hmem : nm ∈ s' :: List.map (fun p => p.1) t ↔
          nm ∈ List.map (fun p => p.1) t := by
        constructor
        · intro hx
          rcases List.mem_cons.mp hx with hx | hx
          · exact absurd hx.symm h1
          · exact hx
        · exact fun hx => List.mem_cons_of_mem _ hx
      by_cases h2 : nm ∈ List.map (fun p => p.1) t
      · rw [if_pos (hmem.mpr h2)]
        rw [ih] at *
        rw [if_pos h2]
      · rw [if_neg (fun hx => h2 (hmem.mp hx))]
        rw [ih]
        rw [if_neg h2]
        simp

theorem docSectionNames_docSet (doc : Document) (s0 k v : Str) :
    docSectionNames (docSet doc s0 k v) =
      if s0 ∈ docSectionNames doc then docSectionNames doc
      else docSectionNames doc ++ [s0] := by
  induction doc with
  | nil => simp [docSet, docSectionNames]
  | cons p t ih =>
    obtain ⟨s', m⟩ := p
    rw [docSet_cons]
    by_cases h1 : s' = s0
    · subst h1
      simp [docSectionNames]
    · rw [if_neg h1]
      simp only [docSectionNames, List.map_cons] at ih ⊢
      have hmem : s0 ∈ s' :: List.map (fun p => p.1) t ↔
          s0 ∈ List.map (fun p => p.1) t := by
        constructor
        · intro hx
          rcases List.mem_cons.mp hx with hx | hx
          · exact absurd hx.symm h1
          · exact hx
        · exact fun hx => List.mem_cons_of_mem _ hx
      by_cases h2 : s0 ∈ List.map (fun p => p.1) t
      · rw [if_pos (hmem.mpr h2)]
        rw [ih] at *
        rw [if_pos h2]
      · rw [if_neg (fun hx => h2 (hmem.mp hx))]
        rw [ih]
        rw [if_neg h2]
        simp

theorem mem_docSectionNames_docInsertEmpty (doc : Document) (nm : Str) :
    nm ∈ docSectionNames (docInsertEmpty doc nm) := by
  rw [docSectionNames_docInsertEmpty]
  by_cases h : nm ∈ docSectionNames doc
  · rw [if_pos h]; exact h
  · rw [if_neg h]; simp

theorem mem_docSectionNames_docInsertEmpty_of_mem (doc : Document) (nm s : Str)
    (h : s ∈ docSectionNames doc) : s ∈ docSectionNames (docInsertEmpty doc nm) := by
  rw [docSectionNames_docInsertEmpty]
  by_cases h1 : nm ∈ docSectionNames doc
  · rw [if_pos h1]; exact h
  · rw [if_neg h1]; exact List.mem_append_left _ h

theorem mem_docSectionNames_docSet_of_mem (doc : Document) (s0 k v s : Str)
    (h : s ∈ docSectionNames doc) : s ∈ docSectionNames (docSet doc s0 k v) := by
  rw [docSectionNames_docSet]
  by_cases h1 : s0 ∈ docSectionNames doc
  · rw [if_pos h1]; exact h
  · rw [if_neg h1]; exact List.mem_append_left _ h

theorem runLines_names_mono (ls : List Str) (n : Nat) (sec : Str) (doc : Document)
    (n' : Nat) (sec' : Str) (doc' : Document)
    (h : runLines ls n sec doc = .ok (n', sec', doc')) (s : Str)
    (hs : s ∈ docSectionNames doc) : s ∈ docSectionNames doc' := by
  induction ls generalizing n sec doc with
  | nil =>
    simp only [runLines, Except.ok.injEq, Prod.mk.injEq] at h
    obtain ⟨-, -, hd⟩ := h
    subst hd
    exact hs
  | cons l t ih =>
    simp only [runLines] at h
    cases hp : processLine sec doc l (n + 1) with
    | error e => rw [hp] at h; exact absurd h (by simp)
    | ok p =>
      obtain ⟨s1, d1⟩ := p
      rw [hp] at h
      rcases processLine_ok_cases sec doc l (n + 1) s1 d1 hp with
        ⟨hskip, hs1, hd1⟩ | ⟨tt, htr, hlast, hval, hs1, hd1⟩ |
        ⟨k1, v1, hne, hnc, hnb, hnsec, hsplit, hvk, hs1, hd1⟩
      · rw [hs1, hd1] at h
        exact ih (n + 1) sec doc h hs
      · rw [hs1, hd1] at h
        exact ih (n + 1) (trim tt.dropLast) (docInsertEmpty doc (trim tt.dropLast)) h
          (mem_docSectionNames_docInsertEmpty_of_mem doc (trim tt.dropLast) s hs)
      · rw [hs1, hd1] at h
        exact ih (n + 1) sec (docSet doc sec k1 v1) h
          (mem_docSectionNames_docSet_of_mem doc sec k1 v1 s hs)

theorem runLines_names_origin (ls : List Str) (n : Nat) (sec : Str) (doc : Document)
    (n' : Nat) (sec' : Str) (doc' : Document)
    (h : runLines ls n sec doc = .ok (n', sec', doc'))
    (hsec : sec = [] ∨ sec ∈ docSectionNames doc) (s : Str)
    (hs : s ∈ docSectionNames doc') :
    s ∈ docSectionNames doc ∨ ∃ l ∈ ls, headerFor l s := by
  induction ls generalizing n sec doc with
  | nil =>
    simp only [runLines, Except.ok.injEq, Prod.mk.injEq] at h
    obtain ⟨-, -, hd⟩ := h
    subst hd
    exact Or.inl hs
  | cons l t ih =>
    simp only [runLines] at h
    cases hp : processLine sec doc l (n + 1) with
    | error e => rw [hp] at h; exact absurd h (by simp)
    | ok p =>
      obtain ⟨s1, d1⟩ := p
      rw [hp] at h
      rcases processLine_ok_cases sec doc l (n + 1) s1 d1 hp with
        ⟨hskip, hs1, hd1⟩ | ⟨tt, htr, hlast, hval, hs1, hd1⟩ |
        ⟨k1, v1, hne, hnc, hnb, hnsec, hsplit, hvk, hs1, hd1⟩
      · rw [hs1, hd1] at h
        rcases ih (n + 1) sec doc h hsec with h0 | ⟨l', hl', hh'⟩
        · exact Or.inl h0
        · exact Or.inr ⟨l', List.mem_cons_of_mem _ hl', hh'⟩
      · rw [hs1, hd1] at h
        rcases ih (n + 1) (trim tt.dropLast) (docInsertEmpty doc (trim tt.dropLast)) h
            (Or.inr (mem_docSectionNames_docInsertEmpty doc (trim tt.dropLast))) with
          h0 | ⟨l', hl', hh'⟩
        · rw [docSectionNames_docInsertEmpty] at h0
          by_cases h1 : trim tt.dropLast ∈ docSectionNames doc
          · rw [if_pos h1] at h0
            exact Or.inl h0
          · rw [if_neg h1] at h0
            rcases List.mem_append.mp h0 with h2 | h2
            · exact Or.inl h2
            · simp only [List.mem_singleton] at h2
              refine Or.inr ⟨l, List.mem_cons_self _ _, tt, htr, hlast, h2.symm⟩
        · exact Or.inr ⟨l', List.mem_cons_of_mem _ hl', hh'⟩
      · rw [hs1, hd1] at h
        have hsm : sec ∈ docSectionNames doc := by
          rcases hsec with h0 | h0
          · exact absurd h0 hnsec
          · exact h0
        have hnames : docSectionNames (docSet doc sec k1 v1) = docSectionNames doc := by
          rw [docSectionNames_docSet, if_pos hsm]
        rcases ih (n + 1) sec (docSet doc sec k1 v1) h
            (Or.inr (by rw [hnames]; exact hsm)) with h0 | ⟨l', hl', hh'⟩
        · rw [hnames] at h0
          exact Or.inl h0
        · exact Or.inr ⟨l', List.mem_cons_of_mem _ hl', hh'⟩

theorem runLines_header_mem (ls : List Str) (n : Nat) (sec : Str) (doc : Document)
    (n' : Nat) (sec' : Str) (doc' : Document)
    (h : runLines ls n sec doc = .ok (n', sec', doc')) (l : Str) (s : Str)
    (hl : l ∈ ls) (hh : headerFor l s) : s ∈ docSectionNames doc' := by
  induction ls generalizing n sec doc with
  | nil => exact absurd hl (by simp)
  | cons l0 t ih =>
    simp only [runLines] at h
    cases hp : processLine sec doc l0 (n + 1) with
    | error e => rw [hp] at h; exact absurd h (by simp)
    | ok p =>
      obtain ⟨s1, d1⟩ := p
      rw [hp] at h
      rcases List.mem_cons.mp hl with hl0 | hl0
      · subst hl0
        obtain ⟨tt, htr, hlast, hnm⟩ := hh
        rcases processLine_ok_cases sec doc l (n + 1) s1 d1 hp with
          ⟨hskip, hs1, hd1⟩ | ⟨tt2, htr2, hlast2, hval2, hs1, hd1⟩ |
          ⟨k1, v1, hne, hnc, hnb, hnsec, hsplit, hvk, hs1, hd1⟩
        · rcases hskip with h0 | h0
          · rw [h0] at htr; exact absurd htr (by simp)
          · rw [htr] at h0; exact absurd h0 (by simp)
        · rw [htr] at htr2
          have htt : tt = tt2 := by
            simpa using htr2
          subst htt
          rw [hs1, hd1] at h
          rw [← hnm]
          exact runLines_names_mono t (n + 1) (trim tt.dropLast)
            (docInsertEmpty doc (trim tt.dropLast)) n' sec' doc' h (trim tt.dropLast)
            (mem_docSectionNames_docInsertEmpty doc (trim tt.dropLast))
        · rw [htr] at hnb
          exact absurd (by simp : (('[' :: tt : Str)).head? = some '[') hnb
      · rcases processLine_ok_cases sec doc l0 (n + 1) s1 d1 hp with
          ⟨hskip, hs1, hd1⟩ | ⟨tt2, htr2, hlast2, hval2, hs1, hd1⟩ |
          ⟨k1, v1, hne, hnc, hnb, hnsec, hsplit, hvk, hs1, hd1⟩
        · rw [hs1, hd1] at h
          exact ih (n + 1) sec doc h hl0
        · rw [hs1, hd1] at h
          exact ih (n + 1) (trim tt2.dropLast) (docInsertEmpty doc (trim tt2.dropLast)) h hl0
        · rw [hs1, hd1] at h
          exact ih (n + 1) sec (docSet doc sec k1 v1) h hl0

theorem runLines_kv_has_header (ls : List Str) (n : Nat) (sec : Str) (doc : Document)
    (n' : Nat) (sec' : Str) (doc' : Document)
    (h : runLines ls n sec doc = .ok (n', sec', doc'))
    (j : Nat) (hj : j < ls.length) (hkv : isKVline (ls.get ⟨j, hj⟩)) :
    sec ≠ [] ∨ ∃ i, i < j ∧ ∃ hi : i < ls.length, isHeaderLine (ls.get ⟨i, hi⟩) := by
  induction ls generalizing n sec doc j with
  | nil => exact absurd hj (by simp)
  | cons l t ih =>
    simp only [runLines] at h
    cases hp : processLine sec doc l (n + 1) with
    | error e => rw [hp] at h; exact absurd h (by simp)
    | ok p =>
      obtain ⟨s1, d1⟩ := p
      rw [hp] at h
      rcases processLine_ok_cases sec doc l (n + 1) s1 d1 hp with
        ⟨hskip, hs1, hd1⟩ | ⟨tt, htr, hlast, hval, hs1, hd1⟩ |
        ⟨k1, v1, hne, hnc, hnb, hnsec, hsplit, hvk, hs1, hd1⟩
      · cases j with
        | zero =>
          obtain ⟨ha, hb, hc⟩ := hkv
          rcases hskip with h0 | h0
          · exact absurd h0 ha
          · exact absurd h0 hb
        | succ j' =>
          rw [hs1, hd1] at h
          have hj' : j' < t.length := by simpa using hj
          have hkv' : isKVline (t.get ⟨j', hj'⟩) := by
            simpa using hkv
          rcases ih (n + 1) sec doc h j' hj' hkv' with h0 | ⟨i, hij, hi, hhl⟩
          · exact Or.inl h0
          · exact Or.inr ⟨i + 1, by omega, by simpa using hi, by simpa using hhl⟩
      · cases j with
        | zero =>
          obtain ⟨ha, hb, hc⟩ := hkv
          simp only [List.get] at hc
          rw [htr] at hc
          exact absurd (by simp : (('[' :: tt : Str)).head? = some '[') hc
        | succ j' =>
          refine Or.inr ⟨0, by omega, by simp, ?_⟩
          show (trim l).head? = some '['
          rw [htr]
          simp
      · exact Or.inl hnsec

theorem lastVal_none_of_no_write (ws : List (Str × Str × Str)) (s k : Str)
    (hw : ∀ e ∈ ws, e.1 ≠ s) : lastVal ws s k = none := by
  induction ws with
  | nil => rfl
  | cons w t ih =>
    simp only [lastVal]
    rw [ih (fun e he => hw e (List.mem_cons_of_mem _ he))]
    rw [if_neg]
    intro hx
    exact hw w (List.mem_cons_self _ _) hx.1

theorem sectFind_of_ne_nil (m : IniSection) (hm : m ≠ []) :
    ∃ k v, sectFind m k = some v := by
  cases m with
  | nil => exact absurd rfl hm
  | cons p t =>
    obtain ⟨k, v⟩ := p
    exact ⟨k, v, sectFind_head k v t⟩

/-! ### Lemmas about the integer conversion -/

theorem isSpaceC_eq_false_of_isDigit (c : Char) (h : c.isDigit = true) :
    isSpaceC c = false := by
  by_contra hx
  have hsp : isSpaceC c = true := by
    cases hy : isSpaceC c
    · exact absurd hy hx
    · rfl
  simp only [isSpaceC, Bool.or_eq_true, decide_eq_true_eq] at hsp
  rcases hsp with ((((h1 | h1) | h1) | h1) | h1) | h1 <;>
    · subst h1; exact absurd h (by decide)

theorem takeWhile_all_append (p : Char → Bool) (a b : Str)
    (ha : a.all p = true) (hb : ∀ c, b.head? = some c → p c = false) :
    (a ++ b).takeWhile p = a := by
  induction a with
  | nil =>
    cases b with
    | nil => rfl
    | cons c t =>
      have := hb c rfl
      simp [List.takeWhile_cons, this]
  | cons x xs ih =>
    simp only [List.all_cons, Bool.and_eq_true] at ha
    simp only [List.cons_append]
    rw [List.takeWhile_cons_of_pos ha.1, ih ha.2]

theorem stoiInt_digits (ds rest : Str) (hne : ds ≠ [])
    (hd : ds.all Char.isDigit = true)
    (hr : ∀ c, rest.head? = some c → c.isDigit = false)
    (hle : (digitsVal ds : Int) ≤ 2147483647) :
    stoiInt (ds ++ rest) = some (digitsVal ds) := by
  cases ds with
  | nil => exact absurd rfl hne
  | cons d ds' =>
    simp only [List.all_cons, Bool.and_eq_true] at hd
    have hd0 : d.isDigit = true := hd.1
    have hnsp : ¬ isSpaceC d = true := by
      rw [isSpaceC_eq_false_of_isDigit d hd0]; simp
    have hdm : d ≠ '-' := by
      intro hx; subst hx; exact absurd hd0 (by decide)
    have hdp : d ≠ '+' := by
      intro hx; subst hx; exact absurd hd0 (by decide)
    have hdrop : ((d :: ds') ++ rest).dropWhile isSpaceC = d :: (ds' ++ rest) := by
      rw [List.cons_append]
      exact List.dropWhile_cons_of_neg hnsp
    have htake : (d :: (ds' ++ rest)).takeWhile Char.isDigit = d :: ds' := by
      rw [← List.cons_append]
      exact takeWhile_all_append Char.isDigit (d :: ds') rest (by simp [hd.1, hd.2]) hr
    simp only [stoiInt, hdrop, List.head?_cons]
    have hm : ¬ (some d = some '-') := by simp [hdm]
    have hmp : ¬ (some d = some '-' ∨ some d = some '+') := by simp [hdm, hdp]
    rw [if_neg hm, if_neg hmp, htake, if_neg (by simp : ¬ (d :: ds' : Str) = [])]
    have hpos : (0 : Int) ≤ (digitsVal (d :: ds') : Int) := by positivity
    rw [if_neg]
    · simp
    · intro hor
      rcases hor with h0 | h0
      · omega
      · omega

theorem stoiInt_neg_digits (ds rest : Str) (hne : ds ≠ [])
    (hd : ds.all Char.isDigit = true)
    (hr : ∀ c, rest.head? = some c → c.isDigit = false)
    (hge : (digitsVal ds : Int) ≤ 2147483648) :
    stoiInt ('-' :: (ds ++ rest)) = some (-(digitsVal ds : Int)) := by
  cases ds with
  | nil => exact absurd rfl hne
  | cons d ds' =>
    simp only [List.all_cons, Bool.and_eq_true] at hd
    have hdrop : ('-' :: ((d :: ds') ++ rest)).dropWhile isSpaceC =
        '-' :: ((d :: ds') ++ rest) :=
      List.dropWhile_cons_of_neg (by simp [isSpaceC])
    have htake : ((d :: ds') ++ rest).takeWhile Char.isDigit = d :: ds' :=
      takeWhile_all_append Char.isDigit (d :: ds') rest (by simp [hd.1, hd.2]) hr
    simp only [stoiInt, hdrop, List.head?_cons, List.tail_cons]
    simp only [true_or, if_true, htake]
    rw [if_neg (by simp : ¬ (d :: ds' : Str) = [])]
    have hpos : (0 : Int) ≤ (digitsVal (d :: ds') : Int) := by positivity
    rw [if_neg]
    · simp
    · intro hor
      rcases hor with h0 | h0
      · omega
      · omega

/-! ### The parse loop on skipped (blank and comment) lines -/

theorem runLines_skip (pre : List Str) (n : Nat) (sec : Str) (doc : Document)
    (hpre : ∀ l ∈ pre, trim l = [] ∨ (trim l).head? = some ';') :
    runLines pre n sec doc = .ok (n + pre.length, sec, doc) := by
  induction pre generalizing n with
  | nil => simp [runLines]
  | cons l t ih =>
    have hl := hpre l (List.mem_cons_self _ _)
    have hp : processLine sec doc l (n + 1) = .ok (sec, doc) := by
      rcases hl with h0 | h0
      · simp [processLine, h0]
      · by_cases hz : trim l = []
        · simp [processLine, hz]
        · simp [processLine, hz, h0]
    simp only [runLines, hp]
    rw [ih (n + 1) (fun l2 h2 => hpre l2 (List.mem_cons_of_mem _ h2))]
    simp only [List.length_cons]
    congr 2
    omega

theorem parse_ok_runLines (lines : List Str) (doc : Document)
    (h : parse lines = .ok doc) :
    ∃ n' sec', runLines lines 0 [] [] = .ok (n', sec', doc) := by
  simp only [parse] at h
  cases hr : runLines lines 0 [] [] with
  | error e => rw [hr] at h; exact absurd h (by simp)
  | ok p =>
    rw [hr] at h
    obtain ⟨n', sec', doc'⟩ := p
    simp only [Except.ok.injEq] at h
    subst h
    exact ⟨n', sec', rfl⟩


theorem docFind_isSome_of_mem (doc : Document) (s : Str)
    (h : s ∈ docSectionNames doc) : ∃ m, docFind doc s = some m := by
  induction doc with
  | nil => exact absurd h (by simp [docSectionNames])
  | cons p t ih =>
    obtain ⟨s', m'⟩ := p
    by_cases h1 : s' = s
    · exact ⟨m', by rw [docFind_cons, if_pos h1]⟩
    · have h2 : s ∈ docSectionNames t := by
        simp only [docSectionNames, List.map_cons, List.mem_cons] at h
        rcases h with h0 | h0
        · exact absurd h0.symm h1
        · exact h0
      obtain ⟨m, hm⟩ := ih h2
      exact ⟨m, by rw [docFind_cons, if_neg h1]; exact hm⟩

theorem docInsertEmpty_of_found (doc : Document) (s : Str) (m : IniSection)
    (h : docFind doc s = some m) : docInsertEmpty doc s = doc := by
  induction doc with
  | nil => exact absurd h (by simp [docFind])
  | cons p t ih =>
    obtain ⟨s', m'⟩ := p
    rw [docInsertEmpty_cons]
    by_cases h1 : s' = s
    · rw [if_pos h1]
    · rw [if_neg h1]
      rw [docFind_cons, if_neg h1] at h
      rw [ih h]

/-! ## The claims -/

/-- Claim C5: `split_key_value` uses the first `=` as the only delimiter: it
fails with MissingEquals when the line has no `=`; the key is the trim of the
text before the first `=` and the split fails with EmptyKey when that key is
empty; the value is the trim of the text after the first `=`, may be empty
without error, and keeps later `=` characters verbatim. -/
theorem iniC5_split_key_value :
    (∀ (line : Str) (n : Nat), ('=' : Char) ∉ line →
      splitKeyValue line n = .error ⟨.missingEquals, some n⟩) ∧
    (∀ (a b : Str) (n : Nat), ('=' : Char) ∉ a →
      ((trim a = [] → splitKeyValue (a ++ '=' :: b) n = .error ⟨.emptyKey, some n⟩) ∧
       (trim a ≠ [] → splitKeyValue (a ++ '=' :: b) n = .ok (trim a, trim b)))) := by
  constructor
  · intro line n h
    simp [splitKeyValue, h]
  · intro a b n ha
    have hmem : ('=' : Char) ∈ a ++ '=' :: b := by simp
    have htw : (a ++ '=' :: b).takeWhile (fun c => c ≠ '=') = a :=
      takeWhile_append_sep '=' a b ha
    have hdw : (a ++ '=' :: b).dropWhile (fun c => c ≠ '=') = '=' :: b :=
      dropWhile_append_sep '=' a b ha
    constructor
    · intro hempty
      simp only [splitKeyValue, if_pos hmem, htw, hdw, List.tail_cons]
      rw [if_pos hempty]
    · intro hne
      simp only [splitKeyValue, if_pos hmem, htw, hdw, List.tail_cons]
      rw [if_neg hne]

/-- Witness for C5 at a concrete input: "a=b=c" splits into key "a" and
value "b=c" (the second `=` is kept in the value). -/
theorem iniC5_witness :
    splitKeyValue (('a' :: []) ++ '=' :: ('b' :: '=' :: 'c' :: [])) 1 =
      .ok (trim ('a' :: []), trim ('b' :: '=' :: 'c' :: [])) :=
  (iniC5_split_key_value.2 ('a' :: []) ('b' :: '=' :: 'c' :: []) 1
    (by decide)).2 (by decide)

/-- Claim C10: the empty-name branch of `validate_key_name` is unreachable
from the parse loop: any key produced by a successful `split_key_value` is
non-empty, so `validate_key_name` on it never yields the empty-key error. -/
theorem iniC10_empty_key_unreachable (line : Str) (n m : Nat) (k v : Str)
    (h : splitKeyValue line n = .ok (k, v)) :
    k ≠ [] ∧ ∀ e, validateKeyName k m = .error e → e.kind ≠ .emptyKey := by
  obtain ⟨-, -, hkne, -⟩ := splitKeyValue_ok_inv line n k v h
  refine ⟨hkne, ?_⟩
  intro e he
  simp only [validateKeyName, if_neg hkne] at he
  split at he
  · cases he
    simp
  · exact absurd he (by simp)

/-- Witness for C10 at a concrete input. -/
theorem iniC10_witness :
    ('a' :: [] : Str) ≠ [] ∧
    ∀ e, validateKeyName ('a' :: []) 5 = .error e → e.kind ≠ .emptyKey :=
  iniC10_empty_key_unreachable ('a' :: '=' :: '1' :: []) 1 5 ('a' :: []) ('1' :: [])
    rfl

/-- Claim C4: for a trimmed line starting with `[`: missing the final `]`
fails with MalformedSection; otherwise the substring strictly between the
first `[` and the final `]` is trimmed and validated — EmptySectionName when
empty, NameContainsWhitespace when it holds whitespace — and on success that
trimmed interior becomes the current section name. -/
theorem iniC4_section_header (sec : Str) (doc : Document) (raw : Str) (n : Nat)
    (t : Str) (htr : trim raw = '[' :: t) :
    (('[' :: t : Str).getLast? ≠ some ']' →
      processLine sec doc raw n = .error ⟨.malformedSection, some n⟩) ∧
    (('[' :: t : Str).getLast? = some ']' →
      ((trim t.dropLast = [] →
        processLine sec doc raw n = .error ⟨.emptySectionName, some n⟩) ∧
       ((trim t.dropLast).any isSpaceC = true →
        processLine sec doc raw n = .error ⟨.sectionNameWhitespace, some n⟩) ∧
       (trim t.dropLast ≠ [] → (trim t.dropLast).any isSpaceC = false →
        processLine sec doc raw n =
          .ok (trim t.dropLast, docInsertEmpty doc (trim t.dropLast))))) := by
  have hne : ¬ trim raw = [] := by rw [htr]; simp
  have hnc : ¬ (trim raw).head? = some ';' := by rw [htr]; simp
  have hhb : (trim raw).head? = some '[' := by rw [htr]; simp
  have htail : (trim raw).tail.dropLast = t.dropLast := by rw [htr]; rfl
  constructor
  · intro hlast
    have hlast2 : (trim raw).getLast? ≠ some ']' := by rw [htr]; exact hlast
    simp only [processLine, if_neg hne, if_pos hhb, if_pos hlast2]
    rw [if_neg hnc]
  · intro hlast
    have hlast2 : ¬ (trim raw).getLast? ≠ some ']' := by rw [htr]; simp [hlast]
    refine ⟨?_, ?_, ?_⟩
    · intro hempty
      simp only [processLine, if_neg hne, if_pos hhb, if_neg hlast2, htail]
      rw [if_neg hnc]
      simp [validateSectionName, hempty]
    · intro hws
      have hnem : trim t.dropLast ≠ [] := by
        intro hx
        rw [hx] at hws
        exact absurd hws (by simp)
      simp only [processLine, if_neg hne, if_pos hhb, if_neg hlast2, htail]
      rw [if_neg hnc]
      simp [validateSectionName, hnem, hws]
    · intro hnem hws
      simp only [processLine, if_neg hne, if_pos hhb, if_neg hlast2, htail]
      rw [if_neg hnc]
      simp [validateSectionName, hnem, hws]

/-- Witness for C4 at a concrete input: the line " [A] " declares section
"A". -/
theorem iniC4_witness :
    processLine [] [] (' ' :: '[' :: 'A' :: ']' :: ' ' :: []) 3 =
      .ok (trim ('A' :: ']' :: [] : Str).dropLast,
        docInsertEmpty [] (trim ('A' :: ']' :: [] : Str).dropLast)) :=
  ((iniC4_section_header [] [] (' ' :: '[' :: 'A' :: ']' :: ' ' :: []) 3
    ('A' :: ']' :: []) (by decide)).2 (by decide)).2.2 (by decide) (by decide)

/-- Claim C6: `get_raw` splits the path at its first `.` (everything after
the first dot is the key): MalformedPath when there is no dot,
EmptyPathComponent when section or key is empty, SectionNotFound listing all
known section names when the section is absent, KeyNotFound listing all keys
of the found section when the key is absent, and the stored value
otherwise. -/
theorem iniC6_get_raw (doc : Document) :
    (∀ path : Str, ('.' : Char) ∉ path →
      getRaw doc path = .error ⟨.malformedPath, none⟩) ∧
    (∀ sp kp : Str, ('.' : Char) ∉ sp →
      (((sp = [] ∨ kp = []) →
        getRaw doc (sp ++ '.' :: kp) = .error ⟨.emptyPathComponent, none⟩) ∧
       (sp ≠ [] → kp ≠ [] →
        ((docFind doc sp = none →
          getRaw doc (sp ++ '.' :: kp) =
            .error ⟨.sectionNotFound (docSectionNames doc), none⟩) ∧
         (∀ m, docFind doc sp = some m →
          ((sectFind m kp = none →
            getRaw doc (sp ++ '.' :: kp) = .error ⟨.keyNotFound (sectKeys m), none⟩) ∧
           (∀ v, sectFind m kp = some v →
            getRaw doc (sp ++ '.' :: kp) = .ok v))))))) := by
  constructor
  · intro path h
    simp [getRaw, h]
  · intro sp kp hdot
    have hmem : ('.' : Char) ∈ sp ++ '.' :: kp := by simp
    have htw : (sp ++ '.' :: kp).takeWhile (fun c => c ≠ '.') = sp :=
      takeWhile_append_sep '.' sp kp hdot
    have hdw : (sp ++ '.' :: kp).dropWhile (fun c => c ≠ '.') = '.' :: kp :=
      dropWhile_append_sep '.' sp kp hdot
    constructor
    · intro hor
      simp only [getRaw, if_pos hmem, htw, hdw, List.tail_cons]
      rw [if_pos hor]
    · intro hsp hkp
      have hpath := getRaw_append_path doc sp kp hdot hsp hkp
      constructor
      · intro hnone
        rw [hpath, hnone]
      · intro m hm
        constructor
        · intro hknone
          rw [hpath, hm]
          simp [hknone]
        · intro v hkv
          rw [hpath, hm]
          simp [hkv]

/-- Witness for C6 at a concrete input: looking up section "A", key "x" in a
document holding only key "k" fails with KeyNotFound listing ["k"]. -/
theorem iniC6_witness :
    getRaw [(('A' :: []), [(('k' :: []), ('1' :: []))])]
        (('A' :: []) ++ '.' :: ('x' :: [])) =
      .error ⟨.keyNotFound (sectKeys [(('k' :: []), ('1' :: []))]), none⟩ :=
  ((((iniC6_get_raw [(('A' :: []), [(('k' :: []), ('1' :: []))])]).2
    ('A' :: []) ('x' :: []) (by decide)).2 (by decide) (by decide)).2
    [(('k' :: []), ('1' :: []))] rfl).1 rfl

/-- Claim C7: re-declaring an existing section leaves the whole document
unchanged (its keys and every other section intact) and only resets the
current section, and a subsequent key-value line is added into that same
existing section while every other section is untouched. -/
theorem iniC7_redeclare (sec : Str) (doc : Document) (raw : Str) (n : Nat)
    (t : Str) (m : IniSection)
    (htr : trim raw = '[' :: t) (hlast : ('[' :: t : Str).getLast? = some ']')
    (hv : validateSectionName (trim t.dropLast) n = .ok ())
    (hm : docFind doc (trim t.dropLast) = some m) :
    processLine sec doc raw n = .ok (trim t.dropLast, doc) ∧
    (∀ k v : Str,
      docFind (docSet doc (trim t.dropLast) k v) (trim t.dropLast) =
        some (sectSet m k v) ∧
      (∀ s', s' ≠ trim t.dropLast →
        docFind (docSet doc (trim t.dropLast) k v) s' = docFind doc s')) := by
  have hne : ¬ trim raw = [] := by rw [htr]; simp
  have hnc : ¬ (trim raw).head? = some ';' := by rw [htr]; simp
  have hhb : (trim raw).head? = some '[' := by rw [htr]; simp
  have htail : (trim raw).tail.dropLast = t.dropLast := by rw [htr]; rfl
  have hlast2 : ¬ (trim raw).getLast? ≠ some ']' := by rw [htr]; simp [hlast]
  constructor
  · simp only [processLine, if_neg hne, if_pos hhb, if_neg hlast2, htail]
    rw [if_neg hnc]
    simp only [hv]
    rw [docInsertEmpty_of_found doc (trim t.dropLast) m hm]
  · intro k v
    constructor
    · rw [docFind_docSet, if_pos rfl, hm]
    · intro s' hs'
      rw [docFind_docSet, if_neg hs']

/-- Witness for C7 at a concrete input: re-declaring "[A]" over a document
where section "A" already holds key "k" keeps the document unchanged. -/
theorem iniC7_witness :
    processLine [] [(('A' :: []), [(('k' :: []), ('1' :: []))])]
        ('[' :: 'A' :: ']' :: []) 4 =
      .ok (trim ('A' :: ']' :: [] : Str).dropLast,
        [(('A' :: []), [(('k' :: []), ('1' :: []))])]) :=
  (iniC7_redeclare [] [(('A' :: []), [(('k' :: []), ('1' :: []))])]
    ('[' :: 'A' :: ']' :: []) 4 ('A' :: ']' :: []) [(('k' :: []), ('1' :: []))]
    (by decide) (by decide) rfl rfl).1

/-- Claim C2: when a line fails validation, `parse` aborts at the first
offending line — whatever follows it is never examined — and surfaces a typed
error carrying the 1-based line number of that line; the error result carries
no document, so the caller never observes the partially built sections. -/
theorem iniC2_parse_aborts (pre : List Str) (bad : Str) (rest : List Str)
    (n1 : Nat) (sec1 : Str) (doc1 : Document) (e : IniError)
    (hpre : runLines pre 0 [] [] = .ok (n1, sec1, doc1))
    (hbad : processLine sec1 doc1 bad (n1 + 1) = .error e) :
    parse (pre ++ bad :: rest) = .error e ∧ e.lineNum = some (pre.length + 1) := by
  have hn : n1 = pre.length := by
    simpa using runLines_ok_length pre 0 [] [] n1 sec1 doc1 hpre
  constructor
  · simp only [parse]
    rw [runLines_append, hpre]
    simp only [runLines]
    rw [hbad]
  · rw [← hn]
    exact processLine_error_line sec1 doc1 bad (n1 + 1) e hbad

/-- Witness for C2 at a concrete input: after the valid line "[A]", the line
"oops" (no `=`) aborts the parse with a line-2 error, whatever follows. -/
theorem iniC2_witness :
    parse ((str "[A]" :: []) ++ str "oops" :: (str "x=1" :: [])) =
      .error ⟨.missingEquals, some 2⟩ ∧
    (⟨.missingEquals, some 2⟩ : IniError).lineNum = some ((str "[A]" :: []).length + 1) :=
  iniC2_parse_aborts (str "[A]" :: []) (str "oops") (str "x=1" :: [])
    1 (str "A") [(str "A", [])] ⟨.missingEquals, some 2⟩ rfl rfl

/-- Claim C3: a key-value line (trimmed non-empty, not a comment, not a
header) occurring before any section header fails the parse with
KeyValueOutsideSection at the correct 1-based line number, counting every raw
input line including the skipped blank and comment lines before it. -/
theorem iniC3_outside_section (pre : List Str) (kv : Str) (rest : List Str)
    (hpre : ∀ l ∈ pre, trim l = [] ∨ (trim l).head? = some ';')
    (hne : trim kv ≠ []) (hnc : (trim kv).head? ≠ some ';')
    (hnb : (trim kv).head? ≠ some '[') :
    parse (pre ++ kv :: rest) =
      .error ⟨.keyValueOutsideSection, some (pre.length + 1)⟩ := by
  simp only [parse]
  rw [runLines_append, runLines_skip pre 0 [] [] hpre]
  simp only [runLines]
  have hp : processLine [] [] kv (0 + pre.length + 1) =
      .error ⟨.keyValueOutsideSection, some (0 + pre.length + 1)⟩ := by
    simp only [processLine, if_neg hne]
    rw [if_neg hnc, if_neg hnb]
    simp
  rw [hp]
  simp

/-- Witness for C3 at a concrete input: a blank line and a comment precede
the key-value line "a=1", which is reported at line 3. -/
theorem iniC3_witness :
    parse ((str "" :: str "; c" :: []) ++ str "a=1" :: []) =
      .error ⟨.keyValueOutsideSection, some ((str "" :: str "; c" :: []).length + 1)⟩ :=
  iniC3_outside_section (str "" :: str "; c" :: []) (str "a=1") []
    (by decide) (by decide) (by decide) (by decide)

/-- Counterexample to claim C8 as stated: "5abc" is not a numeral, yet
`convert_value<int>` (std::stoi) succeeds and returns 5 instead of failing
with ConversionError — stoi only parses a prefix and ignores trailing
content. -/
theorem iniC8_counterexample :
    convertInt (str "5abc") = .ok 5 ∧
    convertInt (str "5abc") ≠ .error ⟨.conversionError, none⟩ := by
  constructor
  · rfl
  · intro h
    have h2 : (Except.ok (5 : Int) : Except IniError Int) =
        .error ⟨.conversionError, none⟩ := h
    exact Except.noConfusion h2

/-- Claim C8 (amended): `get_typed<int>` parses the longest optional-sign,
base-10 digit prefix of the value and ignores any trailing characters after
the digits; it fails with ConversionError exactly when no digit prefix exists
or the parsed value overflows `int`; in particular it returns 5 on "5" and
fails on "abc" and on the out-of-range "2147483648". -/
theorem iniC8_amended :
    (∀ ds rest : Str, ds ≠ [] → ds.all Char.isDigit = true →
      (∀ c, rest.head? = some c → c.isDigit = false) →
      (digitsVal ds : Int) ≤ 2147483647 →
      convertInt (ds ++ rest) = .ok (digitsVal ds)) ∧
    (∀ ds rest : Str, ds ≠ [] → ds.all Char.isDigit = true →
      (∀ c, rest.head? = some c → c.isDigit = false) →
      (digitsVal ds : Int) ≤ 2147483648 →
      convertInt ('-' :: (ds ++ rest)) = .ok (-(digitsVal ds : Int))) ∧
    convertInt (str "5") = .ok 5 ∧
    convertInt (str "abc") = .error ⟨.conversionError, none⟩ ∧
    convertInt (str "2147483648") = .error ⟨.conversionError, none⟩ := by
  refine ⟨?_, ?_, rfl, rfl, rfl⟩
  · intro ds rest h1 h2 h3 h4
    simp [convertInt, stoiInt_digits ds rest h1 h2 h3 h4]
  · intro ds rest h1 h2 h3 h4
    simp [convertInt, stoiInt_neg_digits ds rest h1 h2 h3 h4]

/-- Witness for C8 (amended) at a concrete input: "5" parses to 5. -/
theorem iniC8_amended_witness :
    convertInt (('5' :: []) ++ ([] : Str)) = .ok (digitsVal ('5' :: [])) :=
  iniC8_amended.1 ('5' :: []) [] (by decide) (by decide)
    (by intro c hc; exact absurd hc (by simp)) (by decide)

/-- Counterexample to claim C1 as stated: section name "a.b" is legal (it
holds no whitespace), the pair (section "a.b", key "k") is inserted with
value "1", yet `get_raw` on the path "a.b" + "." + "k" splits at the FIRST
dot, looks up section "a" and fails with SectionNotFound instead of
returning the stored value. -/
theorem iniC1_counterexample :
    parse [str "[a.b]", str "k=1"] = .ok [(str "a.b", [(str "k", str "1")])] ∧
    docFind2 [(str "a.b", [(str "k", str "1")])] (str "a.b") (str "k") =
      some (str "1") ∧
    getRaw [(str "a.b", [(str "k", str "1")])] (str "a.b" ++ '.' :: str "k") =
      .error ⟨.sectionNotFound [str "a.b"], none⟩ := by
  refine ⟨rfl, rfl, rfl⟩

/-- Claim C1 (amended): after a successful parse, for every (section, key)
pair whose section name contains no '.', `get_raw` on the path
section ++ "." ++ key returns exactly the last value written to that pair
during the parse; duplicate keys in one section silently overwrite (the
parse succeeds and the last write wins). -/
theorem iniC1_amended (lines : List Str) (doc : Document) (s k v : Str)
    (hparse : parse lines = .ok doc) (hdot : ('.' : Char) ∉ s)
    (hlastw : lastVal (writes lines []) s k = some v) :
    getRaw doc (s ++ '.' :: k) = .ok v := by
  have hfind : docFind2 doc s k = some v := by
    rw [parse_docFind2 lines doc hparse s k, hlastw]
  have hwf := parse_wellFormed lines doc hparse
  cases hm : docFind doc s with
  | none => simp [docFind2, hm] at hfind
  | some m =>
    have hfind2 : sectFind m k = some v := by
      simpa [docFind2, hm] using hfind
    have hmem := docFind_some_mem doc s m hm
    have hs : s ≠ [] := (hwf (s, m) hmem).1.1
    have hkmem := sectFind_some_mem m k v hfind2
    have hk : k ≠ [] := ((hwf (s, m) hmem).2 (k, v) hkmem).1.1
    rw [getRaw_append_path doc s k hdot hs hk, hm]
    simp [hfind2]

/-- Witness for C1 (amended) at a concrete input: "k" is written twice in
section "s"; the last write "2" is what get_raw returns. -/
theorem iniC1_amended_witness :
    getRaw [(str "s", [(str "k", str "2")])] (str "s" ++ '.' :: str "k") =
      .ok (str "2") :=
  iniC1_amended [str "[s]", str "k=1", str "k=2"]
    [(str "s", [(str "k", str "2")])] (str "s") (str "k") (str "2")
    rfl (by decide) rfl

/-- Claim C9: after a successful parse, every section and key name is
non-empty and whitespace-free and every stored value is a fixed point of
trim; every section in the document was declared by a header line of the
input, and every key-value line is preceded by some header line; a declared
section is present even with no writes to it (then as an empty mapping), and
querying such an empty section finds the section but fails with KeyNotFound
(with an empty key-hint list) for every key. -/
theorem iniC9_invariants (lines : List Str) (doc : Document)
    (h : parse lines = .ok doc) :
    (∀ p ∈ doc, validName p.1 ∧ ∀ q ∈ p.2, validName q.1 ∧ trim q.2 = q.2) ∧
    (∀ p ∈ doc, ∃ l ∈ lines, headerFor l p.1) ∧
    (∀ j (hj : j < lines.length), isKVline (lines.get ⟨j, hj⟩) →
      ∃ i, i < j ∧ ∃ hi : i < lines.length, isHeaderLine (lines.get ⟨i, hi⟩)) ∧
    (∀ l s, l ∈ lines → headerFor l s →
      ∃ m, docFind doc s = some m ∧
        ((∀ e ∈ writes lines [], e.1 ≠ s) → m = [])) ∧
    (∀ s, docFind doc s = some [] → ∀ k, k ≠ [] → ('.' : Char) ∉ s →
      getRaw doc (s ++ '.' :: k) = .error ⟨.keyNotFound [], none⟩) := by
  obtain ⟨n', sec', hr⟩ := parse_ok_runLines lines doc h
  have hwf := parse_wellFormed lines doc h
  refine ⟨hwf, ?_, ?_, ?_, ?_⟩
  · intro p hp
    have hmem : p.1 ∈ docSectionNames doc := List.mem_map_of_mem _ hp
    rcases runLines_names_origin lines 0 [] [] n' sec' doc hr (Or.inl rfl) p.1 hmem with
      h0 | h0
    · exact absurd h0 (by simp [docSectionNames])
    · exact h0
  · intro j hj hkv
    rcases runLines_kv_has_header lines 0 [] [] n' sec' doc hr j hj hkv with h0 | h0
    · exact absurd rfl h0
    · exact h0
  · intro l s hl hh
    have hsm : s ∈ docSectionNames doc :=
      runLines_header_mem lines 0 [] [] n' sec' doc hr l s hl hh
    obtain ⟨m, hm⟩ := docFind_isSome_of_mem doc s hsm
    refine ⟨m, hm, ?_⟩
    intro hnw
    by_contra hne
    obtain ⟨k, v, hkv⟩ := sectFind_of_ne_nil m hne
    have hv : docFind2 doc s k = some v := by simp [docFind2, hm, hkv]
    rw [parse_docFind2 lines doc h s k] at hv
    rw [lastVal_none_of_no_write (writes lines []) s k hnw] at hv
    exact absurd hv (by simp)
  · intro s hm k hk hdot
    have hmem := docFind_some_mem doc s [] hm
    have hs : s ≠ [] := (hwf (s, []) hmem).1.1
    rw [getRaw_append_path doc s k hdot hs hk, hm]
    simp [sectFind, sectKeys]

/-- Witness for C9 at a concrete input: parsing just "[A]" yields an empty
section "A"; looking up key "k" in it fails with KeyNotFound and an empty
hint list. -/
theorem iniC9_witness :
    getRaw [(str "A", [])] (str "A" ++ '.' :: str "k") =
      .error ⟨.keyNotFound [], none⟩ :=
  (iniC9_invariants [str "[A]"] [(str "A", [])] rfl).2.2.2.2 (str "A") rfl
    (str "k") (by decide) (by decide)
